import Mathlib

/-!
Verification of the granular-synthesis engine (`services/audioEngine.ts`).

The definitions below are shallow embeddings of the engine's scheduling,
glitch-state, grain-synthesis, and tempo-estimation code.  JavaScript
numbers are modelled as `ℚ` where the code only adds, multiplies, divides
and compares, and as `ℝ` where `Math.sqrt` or `Math.pow` is involved.
`while` loops are modelled as fuel-indexed recursions together with
theorems showing that enough fuel exists and that the result is stable
once the loop guard is false.
-/

namespace Granulator

/-! ### Glitch state machine (scheduler lines: chaos / glitch state management) -/

/-- The `mode` field of `glitchState`. -/
inductive GlitchMode where
  | NONE
  | STUTTER
  | REVERSE
  | PITCH_JUMP
deriving DecidableEq

/-- The engine's `glitchState` record. -/
structure GlitchState where
  active : Bool
  endTime : ℚ
  mode : GlitchMode
  frozenOffset : ℚ
deriving DecidableEq

/-- Per-tick inputs read by the glitch branch of `scheduler()`:
the audio-context clock, the global `chaos` value and the three
`Math.random()` draws (trigger, duration, mode choice). -/
structure TickEnv where
  now : ℚ
  chaos : ℚ
  randTrig : ℚ
  randDur : ℚ
  randMode : ℚ
deriving DecidableEq

/-- Mode selection: `r < 0.33 → STUTTER`, `r < 0.66 → REVERSE`, else `PITCH_JUMP`. -/
def glitchModeOf (r : ℚ) : GlitchMode :=
  if r < 33/100 then .STUTTER else if r < 66/100 then .REVERSE else .PITCH_JUMP

/-- One scheduler tick of the glitch state machine: the burst-start branch
(guarded by `chaos > 0.05`, `!active` and the probability draw) followed by
the burst-end branch (guarded by `active && currentTime > endTime`). -/
def glitchStep (s : GlitchState) (e : TickEnv) : GlitchState :=
  let s1 :=
    if 5/100 < e.chaos ∧ s.active = false ∧ e.randTrig < e.chaos * (5/100) then
      { active := true
        endTime := e.now + (1/10 + e.randDur * (2/10))
        mode := glitchModeOf e.randMode
        frozenOffset := -1 }
    else s
  if s1.active = true ∧ s1.endTime < e.now then
    { active := false, endTime := s1.endTime, mode := .NONE, frozenOffset := -1 }
  else s1

/-- Folding `glitchStep` over a sequence of scheduler ticks. -/
def glitchRun (s : GlitchState) (ticks : List TickEnv) : GlitchState :=
  ticks.foldl glitchStep s

/-! ### Fuel-indexed while loops

Both `scheduleGrain` (the beat-sync pitch fold) and `detectBPM` (the
tempo-range fold) run loops of the shape `while (x > hi) x /= 2` and
`while (x < lo) x *= 2`.  They are embedded with explicit fuel. -/

/-- `while (hi < r) r /= 2`, with fuel. -/
def halveWhile {α : Type} [LinearOrderedField α] (hi : α) : ℕ → α → α
  | 0, r => r
  | n + 1, r => if hi < r then halveWhile hi n (r / 2) else r

/-- `while (r < lo) r *= 2`, with fuel. -/
def doubleWhile {α : Type} [LinearOrderedField α] (lo : α) : ℕ → α → α
  | 0, r => r
  | n + 1, r => if r < lo then doubleWhile lo n (2 * r) else r

section WhileLoops

variable {α : Type} [LinearOrderedField α]

theorem halveWhile_of_le {hi r : α} (h : r ≤ hi) (n : ℕ) : halveWhile hi n r = r := by
  cases n with
  | zero => rfl
  | succ n => simp [halveWhile, not_lt.mpr h]

theorem halveWhile_le {hi : α} (n : ℕ) :
    ∀ r : α, r ≤ hi * 2 ^ n → halveWhile hi n r ≤ hi := by
  induction n with
  | zero => intro r h; simpa [halveWhile] using h
  | succ n ih =>
    intro r h
    by_cases hr : hi < r
    · simp only [halveWhile, if_pos hr]
      apply ih
      rw [div_le_iff₀ (by norm_num : (0:α) < 2)]
      have e : hi * 2 ^ n * 2 = hi * 2 ^ (n + 1) := by ring
      rw [e]; exact h
    · simpa [halveWhile, hr] using not_lt.mp hr

theorem halveWhile_pos {hi r : α} (h : 0 < r) (n : ℕ) : 0 < halveWhile hi n r := by
  induction n generalizing r with
  | zero => simpa [halveWhile] using h
  | succ n ih =>
    by_cases hr : hi < r
    · simpa [halveWhile, hr] using ih (by positivity)
    · simpa [halveWhile, hr] using h

theorem halveWhile_cases {hi : α} (n : ℕ) :
    ∀ r : α, halveWhile hi n r = r ∨ hi / 2 < halveWhile hi n r := by
  induction n with
  | zero => intro r; exact Or.inl rfl
  | succ n ih =>
    intro r
    by_cases hr : hi < r
    · simp only [halveWhile, if_pos hr]
      rcases ih (r / 2) with h | h
      · exact Or.inr (by rw [h]; linarith)
      · exact Or.inr h
    · exact Or.inl (by simp [halveWhile, hr])

theorem halveWhile_stable {hi : α} (n : ℕ) :
    ∀ r : α, halveWhile hi n r ≤ hi → ∀ m, halveWhile hi (n + m) r = halveWhile hi n r := by
  induction n with
  | zero =>
    intro r h m
    simp only [halveWhile, Nat.zero_add]
    exact halveWhile_of_le (by simpa [halveWhile] using h) m
  | succ n ih =>
    intro r h m
    by_cases hr : hi < r
    · have e1 : halveWhile hi (n + 1 + m) r = halveWhile hi (n + m) (r / 2) := by
        have : n + 1 + m = (n + m) + 1 := by omega
        rw [this]; simp [halveWhile, hr]
      rw [e1, ih _ (by simpa [halveWhile, hr] using h) m]
      simp [halveWhile, hr]
    · have hle : r ≤ hi := not_lt.mp hr
      rw [halveWhile_of_le hle, halveWhile_of_le hle]

theorem doubleWhile_of_ge {lo r : α} (h : lo ≤ r) (n : ℕ) : doubleWhile lo n r = r := by
  cases n with
  | zero => rfl
  | succ n => simp [doubleWhile, not_lt.mpr h]

theorem doubleWhile_ge {lo : α} (n : ℕ) :
    ∀ r : α, lo ≤ r * 2 ^ n → lo ≤ doubleWhile lo n r := by
  induction n with
  | zero => intro r h; simpa [doubleWhile] using h
  | succ n ih =>
    intro r h
    by_cases hr : r < lo
    · simp only [doubleWhile, if_pos hr]
      apply ih
      have e : 2 * r * 2 ^ n = r * 2 ^ (n + 1) := by ring
      rw [e]; exact h
    · simpa [doubleWhile, hr] using not_lt.mp hr

theorem doubleWhile_cases {lo : α} (n : ℕ) :
    ∀ r : α, doubleWhile lo n r = r ∨ doubleWhile lo n r < 2 * lo := by
  induction n with
  | zero => intro r; exact Or.inl rfl
  | succ n ih =>
    intro r
    by_cases hr : r < lo
    · simp only [doubleWhile, if_pos hr]
      rcases ih (2 * r) with h | h
      · exact Or.inr (by rw [h]; linarith)
      · exact Or.inr h
    · exact Or.inl (by simp [doubleWhile, hr])

theorem doubleWhile_stable {lo : α} (n : ℕ) :
    ∀ r : α, lo ≤ doubleWhile lo n r → ∀ m, doubleWhile lo (n + m) r = doubleWhile lo n r := by
  induction n with
  | zero =>
    intro r h m
    simp only [doubleWhile, Nat.zero_add]
    exact doubleWhile_of_ge (by simpa [doubleWhile] using h) m
  | succ n ih =>
    intro r h m
    by_cases hr : r < lo
    · have e1 : doubleWhile lo (n + 1 + m) r = doubleWhile lo (n + m) (2 * r) := by
        have : n + 1 + m = (n + m) + 1 := by omega
        rw [this]; simp [doubleWhile, hr]
      rw [e1, ih _ (by simpa [doubleWhile, hr] using h) m]
      simp [doubleWhile, hr]
    · have hge : lo ≤ r := not_lt.mp hr
      rw [doubleWhile_of_ge hge, doubleWhile_of_ge hge]

end WhileLoops

/-- The beat-sync base-pitch fold in `scheduleGrain`:
`while (ratio > 1.5) ratio /= 2; while (ratio < 0.75) ratio *= 2`. -/
def pitchFold {α : Type} [LinearOrderedField α] (fuel : ℕ) (r : α) : α :=
  doubleWhile (3/4) fuel (halveWhile (3/2) fuel r)

/-! ### Tempo estimator (`detectBPM`)

The offline render (lowpass filter) is backend work; the analysis is
modelled from the filtered channel data onwards, as a list of samples. -/

/-- One iteration of the peak-detection loop: push index `p.1` when the
sample exceeds the 0.3 threshold and is farther than `minDist` from the
previously accepted peak.  The accumulator holds the peaks in reverse. -/
def peakStep (minDist : ℚ) (acc : List ℕ) (p : ℕ × ℚ) : List ℕ :=
  if 3/10 < p.2 then
    match acc with
    | [] => [p.1]
    | prev :: rest => if minDist < (p.1 : ℚ) - (prev : ℚ) then p.1 :: prev :: rest else prev :: rest
  else acc

/-- The peak indices accepted by `detectBPM`'s scan, in increasing order. -/
def findPeaks (data : List ℚ) (minDist : ℚ) : List ℕ :=
  (data.enum.foldl (peakStep minDist) []).reverse

/-- Inter-peak sample intervals (`peaks[i] - peaks[i-1]`). -/
def intervalsOf (peaks : List ℕ) : List ℕ :=
  (peaks.zip peaks.tail).map (fun p => p.2 - p.1)

/-- Quantisation of an interval to the nearest 1000-sample bucket
(`Math.round(interval / 1000) * 1000`). -/
def bucketOf (iv : ℕ) : ℤ :=
  round ((iv : ℚ) / 1000) * 1000

/-- Smallest element of a nonempty list (default 0). -/
def minBucket : List ℤ → ℤ
  | [] => 0
  | b :: bs => bs.foldl min b

/-- The histogram-mode interval.  JavaScript's `for…in` visits the
integer-like histogram keys in ascending numeric order and a key replaces
the current best only on a strictly greater count, so the selected
`bestInterval` is the smallest bucket attaining the maximal count. -/
def bestIntervalOf (intervals : List ℕ) : ℤ :=
  let buckets := intervals.map bucketOf
  let maxCount := (buckets.map (fun b => buckets.count b)).foldl max 0
  minBucket (buckets.filter (fun b => buckets.count b == maxCount))

/-- The body of `detectBPM` from the filtered channel data onwards.
Returns the rounded BPM (an integer).  `fuel` bounds the two tempo-range
folding `while` loops. -/
def detectBPM (data : List ℚ) (sampleRate : ℚ) (fuel : ℕ) : ℤ :=
  let peaks := findPeaks data (1/4 * sampleRate)
  if peaks.length < 2 then 120
  else
    let best := bestIntervalOf (intervalsOf peaks)
    if best = 0 then 120
    else
      let bpm : ℚ := 60 / ((best : ℚ) / sampleRate)
      let folded := halveWhile 180 fuel (doubleWhile 70 fuel bpm)
      if round folded = 0 then 120 else round folded

/-- The `try { … } catch { return 120 }` wrapper of `detectBPM`: any
failure of the decode/render/analysis body yields the 120 default. -/
def detectBPMSafe (input : Except Unit (List ℚ × ℚ)) (fuel : ℕ) : ℤ :=
  match input with
  | .error _ => 120
  | .ok (data, sr) => detectBPM data sr fuel

/-! ### Orb set and scheduling cursor table (`updateOrbs`, `nextGrainTime`) -/

/-- The engine state relevant to orb registration: the orb map's key set
and the `nextGrainTime` cursor table (an id → time map, modelled as an
association list).  Orb ids are modelled as naturals. -/
structure EngineOrbs where
  orbs : List ℕ
  nextGrainTime : List (ℕ × ℚ)
deriving DecidableEq

/-- `updateOrbs(orbsList)`: clears the orb map and registers the given
list.  The `nextGrainTime` table is not touched by the source. -/
def updateOrbs (s : EngineOrbs) (ids : List ℕ) : EngineOrbs :=
  { orbs := ids, nextGrainTime := s.nextGrainTime }

/-- `Map.set` on the association list: overwrite an existing key or append. -/
def mapSet (m : List (ℕ × ℚ)) (k : ℕ) (v : ℚ) : List (ℕ × ℚ) :=
  match m with
  | [] => [(k, v)]
  | (k', v') :: rest => if k' = k then (k, v) :: rest else (k', v') :: mapSet rest k v

/-- The cursor-table effect of one `scheduler()` tick: for every orb id the
loop ends with `nextGrainTime.set(id, nextTime)`; `f` supplies the value
written (its exact value is irrelevant to the table's key set).  No key is
ever deleted. -/
def schedulerSetCursors (s : EngineOrbs) (f : ℕ → ℚ) : EngineOrbs :=
  { orbs := s.orbs
    nextGrainTime := s.orbs.foldl (fun m i => mapSet m i (f i)) s.nextGrainTime }

/-! ### Grain scan offset and the STUTTER freeze (`scheduleGrain`) -/

/-- JavaScript `a % d` (remainder with the dividend's sign) followed by the
source's negative-wrap (`if (offset < 0) offset += duration`). -/
def wrapOffset (a d : ℚ) : ℚ :=
  let m := if 0 ≤ a then a - d * (Int.floor (a / d) : ℚ)
           else a + d * (Int.floor (-a / d) : ℚ)
  if m < 0 then m + d else m

/-- The scan position after LFO modulation, times the buffer duration
(`offset = position * duration` with `position += lfoVal * 0.5` when the
LFO targets position). -/
def grainRawOff (pos lfoVal : ℚ) (lfoTargetPos : Bool) (duration : ℚ) : ℚ :=
  (if lfoTargetPos then pos + lfoVal * (1/2) else pos) * duration

/-- The offset logic of one `scheduleGrain` call: the STUTTER freeze
(record into `frozenOffset` when it is negative, else reuse it) or the
normal ±0.025 s jitter, followed by the modulo wrap.  Returns the offset
passed to `source.start` and the updated `frozenOffset`. -/
def grainOffsetStep (stutter : Bool) (frozen : ℚ) (rawOff duration rand : ℚ) : ℚ × ℚ :=
  if stutter then
    if frozen < 0 then (wrapOffset rawOff duration, rawOff)
    else (wrapOffset frozen duration, frozen)
  else
    (wrapOffset (rawOff + (rand - 1/2) * (5/100)) duration, frozen)

/-- The offsets used by a sequence of grains of one orb during a STUTTER
burst (one list entry per grain, carrying that grain's LFO sample), with
the `frozenOffset` state threaded through. -/
def stutterBurst (pos duration : ℚ) (frozen : ℚ) : List ℚ → List ℚ
  | [] => []
  | lfo :: rest =>
    let r := grainOffsetStep true frozen (grainRawOff pos lfo true duration) duration 0
    r.1 :: stutterBurst pos duration r.2 rest

/-! ### Grain playback rate (`scheduleGrain`) -/

/-- The per-orb `lfoTarget` parameter. -/
inductive LfoTarget where
  | none
  | position
  | grainSize
  | density
  | pitch
  | volume
deriving DecidableEq

/-- The playback rate of one grain before the final clamp: base 1.0, the
pitch-target LFO addition, the beat-sync fold (guarded by `beatSync &&
orb.detectedBpm`, the latter falsy when absent or 0), the glitch override
(REVERSE negation or the PITCH_JUMP octave draw) and the random detune
multiplier `2^(cents/1200)` with `cents = (rand − 0.5) · randomPitch · 2400`. -/
noncomputable def preRate (target : LfoTarget) (lfoVal : ℝ) (beatSync : Bool)
    (detectedBpm : Option ℝ) (masterBpm : ℝ) (gActive : Bool) (gMode : GlitchMode)
    (jumpRand rand randomPitch : ℝ) (fuel : ℕ) : ℝ :=
  let r0 : ℝ := 1 + (if target = .pitch then lfoVal else 0)
  let r1 : ℝ :=
    if beatSync then
      match detectedBpm with
      | some db => if db = 0 then r0 else r0 * pitchFold fuel (masterBpm / db)
      | Option.none => r0
    else r0
  let r2 : ℝ :=
    if gActive then
      match gMode with
      | .REVERSE => r1 * (-1)
      | .PITCH_JUMP => r1 * (if 1/2 < jumpRand then 2 else 1/2)
      | _ => r1
    else r1
  r2 * (2 : ℝ) ^ (((rand - 1/2) * randomPitch * 2400) / 1200)

/-- The final clamp of `scheduleGrain`:
`if (|r| < 0.05) r = 0.05·sign r; if (|r| > 4) r = 4·sign r`. -/
noncomputable def clampRate (r : ℝ) : ℝ :=
  let r1 := if |r| < 5/100 then 5/100 * Real.sign r else r
  if 4 < |r1| then 4 * Real.sign r1 else r1

/-- The value written to `source.playbackRate.value` for one grain. -/
noncomputable def scheduleGrainRate (target : LfoTarget) (lfoVal : ℝ) (beatSync : Bool)
    (detectedBpm : Option ℝ) (masterBpm : ℝ) (gActive : Bool) (gMode : GlitchMode)
    (jumpRand rand randomPitch : ℝ) (fuel : ℕ) : ℝ :=
  clampRate (preRate target lfoVal beatSync detectedBpm masterBpm gActive gMode
    jumpRand rand randomPitch fuel)

/-! ### Scheduler cursor advance (`scheduler`) -/

/-- The free-run pre-jitter inter-grain interval:
`interval = 0.5 − sqrt(clamp(density)) · (0.5 − 0.01)` with the density
clamped into `[0.01, 1]`. -/
noncomputable def freeRunInterval (effDensity : ℝ) : ℝ :=
  let density := max (1/100) (min 1 effDensity)
  1/2 - Real.sqrt density * (1/2 - 1/100)

/-- The inputs of one iteration of the cursor-advance loop: whether a
STUTTER burst is active, the global beat-sync flag and master BPM, the
effective density, and the `Math.random()` jitter draw. -/
structure GTick where
  stutter : Bool
  beatSync : Bool
  masterBpm : ℝ
  effDensity : ℝ
  rand : ℝ

/-- The amount added to `nextTime` by one iteration of the scheduling
loop: the fixed 50 ms STUTTER step, the beat-sync subdivision with ±5 %
humanisation, or the free-run interval with ±0.01 s jitter floored at
0.005 s. -/
noncomputable def cursorStep (g : GTick) : ℝ :=
  if g.stutter then 5/100
  else if g.beatSync then
    let bpm := if g.masterBpm = 0 then 120 else g.masterBpm
    let beatDur := 60 / bpm
    let d := max 0 (min 1 g.effDensity)
    let subdivision : ℝ :=
      if d < 1/4 then 1 else if d < 1/2 then 1/2 else if d < 3/4 then 1/4 else 1/8
    let interval := beatDur * subdivision
    interval + (g.rand - 1/2) * interval * (5/100)
  else
    max (5/1000) (freeRunInterval g.effDensity + (g.rand - 1/2) * (1/100))

/-- Grain start times emitted by the scheduling loop from cursor `t`. -/
noncomputable def grainTimes (t : ℝ) : List GTick → List ℝ
  | [] => []
  | g :: gs => t :: grainTimes (t + cursorStep g) gs

/-- The cursor value persisted after the loop. -/
noncomputable def endCursor (t : ℝ) : List GTick → ℝ
  | [] => t
  | g :: gs => endCursor (t + cursorStep g) gs

/-- Grain start times of one orb across several scheduler ticks.  Each
tick snaps a lagging cursor to `currentTime`
(`if (nextTime < currentTime) nextTime = currentTime`), emits its grains
and persists the advanced cursor. -/
noncomputable def schedulerTimes (c : ℝ) : List (ℝ × List GTick) → List ℝ
  | [] => []
  | (now, gs) :: ts =>
    let c1 := if c < now then now else c
    grainTimes c1 gs ++ schedulerTimes (endCursor c1 gs) ts

/-- Hypotheses under which a cursor-advance input is considered:
a positive master BPM and a `Math.random()` draw in `[0, 1)`. -/
def validTick (g : GTick) : Prop :=
  0 < g.masterBpm ∧ 0 ≤ g.rand ∧ g.rand < 1

/-! ### Claim C1 -/

/-- Claim C1: the claim asserts that after `updateOrbs(list)` the
`nextGrainTime` table holds exactly one entry per orb of the new list and
none for removed orbs.  Evaluating the code: an engine with one orb (id 1)
whose cursor was set by a scheduler tick, then `updateOrbs([])` — the orb
set becomes empty but the removed orb's cursor entry survives untouched,
so the table is not reconciled. -/
theorem updateOrbs_keeps_stale_cursor :
    (updateOrbs (schedulerSetCursors ⟨[1], []⟩ (fun _ => 0)) []).orbs = [] ∧
    (updateOrbs (schedulerSetCursors ⟨[1], []⟩ (fun _ => 0)) []).nextGrainTime = [(1, 0)] :=
  ⟨rfl, rfl⟩

/-! ### Claim C3 -/

/-- Claim C3: the claim asserts that during one STUTTER burst every grain
after the first reuses the first grain's recorded scan offset.  Evaluating
the code on a burst of two grains of one orb (buffer duration 1 s,
`position = 0.1`, position-targeting LFO with samples −1 then −0.8): the
first grain's raw offset is −0.4, which is stored in `frozenOffset` but —
being negative — is indistinguishable from the −1 "unset" sentinel, so the
second grain re-records its own offset instead of reusing the frozen one.
The two grains play at offsets 0.6 and 0.7: the offset drifts. -/
theorem stutterBurst_drifts :
    stutterBurst (1/10) 1 (-1) [-1, -4/5] = [3/5, 7/10] ∧ (3/5 : ℚ) ≠ 7/10 := by
  constructor
  · norm_num [stutterBurst, grainOffsetStep, grainRawOff, wrapOffset]
  · norm_num

/-! ### Claims C5 and C6: the glitch state machine -/

/-- Claim C5: a glitch burst self-terminates.  On the tick where the
machine enters an active mode at time `now` the chosen `endTime` satisfies
`endTime − now ∈ [0.1, 0.3]`; while `now ≤ endTime` the state (hence the
mode) is unchanged, so no mode change happens mid-burst; and on the first
tick with `now > endTime` the machine reverts to NONE with `active`
cleared and `frozenOffset` reset. -/
theorem glitch_burst_self_terminates (s : GlitchState) (e : TickEnv)
    (h0 : 0 ≤ e.randDur) (h1 : e.randDur < 1) :
    (s.active = false → (glitchStep s e).active = true →
      1/10 ≤ (glitchStep s e).endTime - e.now ∧ (glitchStep s e).endTime - e.now ≤ 3/10) ∧
    (s.active = true → e.now ≤ s.endTime → glitchStep s e = s) ∧
    (s.active = true → s.endTime < e.now →
      glitchStep s e = { active := false, endTime := s.endTime, mode := .NONE,
                         frozenOffset := -1 }) := by
  refine ⟨?_, ?_, ?_⟩
  · intro hs ha
    by_cases htrig : 5/100 < e.chaos ∧ s.active = false ∧ e.randTrig < e.chaos * (5/100)
    · have hstep : glitchStep s e =
          { active := true, endTime := e.now + (1/10 + e.randDur * (2/10)),
            mode := glitchModeOf e.randMode, frozenOffset := -1 } := by
        simp only [glitchStep, if_pos htrig]
        rw [if_neg]
        rintro ⟨-, hlt⟩
        have hlt' : e.now + (1/10 + e.randDur * (2/10)) < e.now := hlt
        nlinarith
      rw [hstep]
      refine ⟨?_, ?_⟩
      · show 1/10 ≤ (e.now + (1/10 + e.randDur * (2/10))) - e.now
        nlinarith
      · show (e.now + (1/10 + e.randDur * (2/10))) - e.now ≤ 3/10
        nlinarith
    · exfalso
      have hstep : glitchStep s e =
          if s.active = true ∧ s.endTime < e.now then
            ({ active := false, endTime := s.endTime, mode := .NONE,
               frozenOffset := -1 } : GlitchState)
          else s := by
        simp only [glitchStep, if_neg htrig]
      rw [hstep] at ha
      by_cases hdone : s.active = true ∧ s.endTime < e.now
      · rw [if_pos hdone] at ha
        have hb : (false : Bool) = true := ha
        simp at hb
      · rw [if_neg hdone] at ha
        rw [hs] at ha
        simp at ha
  · intro hs hlive
    have htrig : ¬ (5/100 < e.chaos ∧ s.active = false ∧ e.randTrig < e.chaos * (5/100)) := by
      rintro ⟨-, hfalse, -⟩; rw [hs] at hfalse; simp at hfalse
    simp only [glitchStep, if_neg htrig]
    rw [if_neg (by rintro ⟨-, hlt⟩; exact absurd hlive (not_le.mpr hlt))]
  · intro hs hover
    have htrig : ¬ (5/100 < e.chaos ∧ s.active = false ∧ e.randTrig < e.chaos * (5/100)) := by
      rintro ⟨-, hfalse, -⟩; rw [hs] at hfalse; simp at hfalse
    simp only [glitchStep, if_neg htrig]
    rw [if_pos ⟨hs, hover⟩]

/-- Witness for C5 at a concrete state and tick: an idle machine, chaos 1,
a trigger draw 0 and a duration draw 0 entering a burst at time 0. -/
theorem glitch_burst_self_terminates_witness :
    (0 : ℚ) ≤ 0 ∧ (0 : ℚ) < 1 ∧
    ((⟨false, 0, .NONE, -1⟩ : GlitchState).active = false →
      (glitchStep ⟨false, 0, .NONE, -1⟩ ⟨0, 1, 0, 0, 0⟩).active = true →
      1/10 ≤ (glitchStep ⟨false, 0, .NONE, -1⟩ ⟨0, 1, 0, 0, 0⟩).endTime - (0:ℚ) ∧
      (glitchStep ⟨false, 0, .NONE, -1⟩ ⟨0, 1, 0, 0, 0⟩).endTime - (0:ℚ) ≤ 3/10) :=
  ⟨le_refl 0, by norm_num,
   (glitch_burst_self_terminates ⟨false, 0, .NONE, -1⟩ ⟨0, 1, 0, 0, 0⟩
     (le_refl 0) (by norm_num)).1⟩

/-- Claim C6: with the global chaos parameter at or below the 0.05
threshold on every tick, the probability draw is skipped and an idle
machine never leaves NONE: any run of scheduler ticks leaves the glitch
state exactly as it started. -/
theorem glitch_frozen_when_chaos_low (s : GlitchState) (ticks : List TickEnv)
    (hs : s.active = false)
    (hc : ∀ e ∈ ticks, e.chaos ≤ 5/100) :
    glitchRun s ticks = s ∧ (glitchRun s ticks).active = false ∧
    (glitchRun s ticks).mode = s.mode := by
  have main : glitchRun s ticks = s := by
    induction ticks with
    | nil => rfl
    | cons e ts ih =>
      have hstep : glitchStep s e = s := by
        have htrig : ¬ (5/100 < e.chaos ∧ s.active = false ∧
            e.randTrig < e.chaos * (5/100)) := by
          rintro ⟨hlt, -, -⟩
          exact absurd (hc e (List.mem_cons_self e ts)) (not_le.mpr hlt)
        have hdone : ¬ (s.active = true ∧ s.endTime < e.now) := by
          rintro ⟨htrue, -⟩; rw [hs] at htrue; exact Bool.false_ne_true htrue
        simp only [glitchStep, if_neg htrig, if_neg hdone]
      show glitchRun (glitchStep s e) ts = s
      rw [hstep]
      exact ih (fun e' he' => hc e' (List.mem_cons_of_mem e he'))
  exact ⟨main, by rw [main]; exact hs, by rw [main]⟩

/-- Witness for C6: an idle machine and two concrete ticks with chaos 0
and 0.05. -/
theorem glitch_frozen_when_chaos_low_witness :
    ((⟨false, 0, .NONE, -1⟩ : GlitchState).active = false) ∧
    glitchRun ⟨false, 0, .NONE, -1⟩ [⟨1, 0, 0, 0, 0⟩, ⟨2, 5/100, 0, 0, 0⟩] =
      (⟨false, 0, .NONE, -1⟩ : GlitchState) :=
  ⟨rfl,
   (glitch_frozen_when_chaos_low ⟨false, 0, .NONE, -1⟩ [⟨1, 0, 0, 0, 0⟩, ⟨2, 5/100, 0, 0, 0⟩]
     rfl (by intro e he
             rcases List.mem_cons.mp he with rfl | he'
             · norm_num
             · rcases List.mem_cons.mp he' with rfl | he''
               · norm_num
               · cases he'')).1⟩

/-! ### Claim C4 -/

/-- On `[0.01, 1]` the density clamp inside `freeRunInterval` is the identity. -/
theorem freeRunInterval_eq {d : ℝ} (h1 : 1/100 ≤ d) (h2 : d ≤ 1) :
    freeRunInterval d = 1/2 - Real.sqrt d * (1/2 - 1/100) := by
  unfold freeRunInterval
  rw [min_eq_right h2, max_eq_right h1]

/-- Claim C4: the free-run pre-jitter interval
`f(d) = 0.5 − sqrt(d)·(0.5 − 0.01)` is strictly decreasing on the clamped
density range `[0.01, 1]` and its value lies in `[0.01, 0.5]` there. -/
theorem freeRunInterval_strictAnti_and_bounded :
    (∀ d₁ d₂ : ℝ, 1/100 ≤ d₁ → d₁ < d₂ → d₂ ≤ 1 →
      freeRunInterval d₂ < freeRunInterval d₁) ∧
    (∀ d : ℝ, 1/100 ≤ d → d ≤ 1 →
      1/100 ≤ freeRunInterval d ∧ freeRunInterval d ≤ 1/2) := by
  constructor
  · intro d₁ d₂ h1 h12 h2
    rw [freeRunInterval_eq h1 (le_of_lt (lt_of_lt_of_le h12 h2)),
        freeRunInterval_eq (le_trans h1 (le_of_lt h12)) h2]
    have hs : Real.sqrt d₁ < Real.sqrt d₂ :=
      Real.sqrt_lt_sqrt (by linarith) h12
    nlinarith
  · intro d hd1 hd2
    rw [freeRunInterval_eq hd1 hd2]
    have h0 : (0:ℝ) ≤ Real.sqrt d := Real.sqrt_nonneg d
    have h1 : Real.sqrt d ≤ 1 := by
      rw [show (1:ℝ) = Real.sqrt 1 by rw [Real.sqrt_one]]
      exact Real.sqrt_le_sqrt hd2
    constructor <;> nlinarith

/-- Witness for C4 at `d₁ = 1/4`, `d₂ = 1`. -/
theorem freeRunInterval_strictAnti_and_bounded_witness :
    (1/100 : ℝ) ≤ 1/4 ∧ (1/4 : ℝ) < 1 ∧ (1 : ℝ) ≤ 1 ∧
    freeRunInterval 1 < freeRunInterval (1/4) :=
  ⟨by norm_num, by norm_num, le_refl 1,
   freeRunInterval_strictAnti_and_bounded.1 (1/4) 1 (by norm_num) (by norm_num) (le_refl 1)⟩

/-! ### Claim C2 -/

/-- The final clamp keeps a nonzero rate's magnitude in `[0.05, 4]` and
preserves its sign. -/
theorem clampRate_spec {r : ℝ} (h : r ≠ 0) :
    5/100 ≤ |clampRate r| ∧ |clampRate r| ≤ 4 ∧ Real.sign (clampRate r) = Real.sign r := by
  have habs : (0:ℝ) < |r| := abs_pos.mpr h
  rcases lt_or_gt_of_ne h with hneg | hpos
  · have hsign : Real.sign r = -1 := Real.sign_of_neg hneg
    have hr : |r| = -r := abs_of_neg hneg
    unfold clampRate
    by_cases hsmall : |r| < 5/100
    · have he : (if |r| < 5/100 then 5/100 * Real.sign r else r) = -(5/100) := by
        rw [if_pos hsmall, hsign]; ring
      rw [he]
      have : |(-(5/100) : ℝ)| = 5/100 := by rw [abs_neg, abs_of_pos]; norm_num
      rw [if_neg (by rw [this]; norm_num), this]
      refine ⟨le_refl _, by norm_num, ?_⟩
      rw [Real.sign_of_neg (by norm_num), hsign]
    · have he : (if |r| < 5/100 then 5/100 * Real.sign r else r) = r := if_neg hsmall
      rw [he]
      by_cases hbig : 4 < |r|
      · rw [if_pos hbig, hsign]
        have h4 : (4 : ℝ) * (-1) = -4 := by ring
        rw [h4]
        have : |(-4 : ℝ)| = 4 := by rw [abs_neg, abs_of_pos]; norm_num
        rw [this]
        refine ⟨by norm_num, le_refl _, ?_⟩
        rw [Real.sign_of_neg (by norm_num)]
      · rw [if_neg hbig]
        exact ⟨not_lt.mp hsmall, not_lt.mp hbig, rfl⟩
  · have hsign : Real.sign r = 1 := Real.sign_of_pos hpos
    have hr : |r| = r := abs_of_pos hpos
    unfold clampRate
    by_cases hsmall : |r| < 5/100
    · have he : (if |r| < 5/100 then 5/100 * Real.sign r else r) = 5/100 := by
        rw [if_pos hsmall, hsign]; ring
      rw [he]
      have : |(5/100 : ℝ)| = 5/100 := abs_of_pos (by norm_num)
      rw [if_neg (by rw [this]; norm_num), this]
      refine ⟨le_refl _, by norm_num, ?_⟩
      rw [Real.sign_of_pos (by norm_num), hsign]
    · have he : (if |r| < 5/100 then 5/100 * Real.sign r else r) = r := if_neg hsmall
      rw [he]
      by_cases hbig : 4 < |r|
      · rw [if_pos hbig, hsign]
        have h4 : (4 : ℝ) * 1 = 4 := by ring
        rw [h4]
        have : |(4 : ℝ)| = 4 := abs_of_pos (by norm_num)
        rw [this]
        refine ⟨by norm_num, le_refl _, ?_⟩
        rw [Real.sign_of_pos (by norm_num)]
      · rw [if_neg hbig]
        exact ⟨not_lt.mp hsmall, not_lt.mp hbig, rfl⟩

/-- Counterexample to C2 as stated: with the LFO targeting pitch and an
LFO sample of exactly −1 (reachable: `sin = −1` with `lfoDepth = 1`), the
pre-clamp rate is `1 + (−1) = 0`; `Math.sign(0) = 0`, so both clamp steps
write 0 and the value set on `source.playbackRate` is 0, violating the
claimed lower bound `0.05 ≤ |playbackRate|`. -/
theorem scheduleGrainRate_zero :
    scheduleGrainRate .pitch (-1) false Option.none 120 false .NONE 0 (1/2) 0 5 = 0 ∧
    ¬ (5/100 ≤ |scheduleGrainRate .pitch (-1) false Option.none 120 false .NONE 0 (1/2) 0 5|) := by
  have hpre : preRate .pitch (-1) false Option.none 120 false .NONE 0 (1/2) 0 5 = 0 := by
    unfold preRate
    norm_num
  have h : scheduleGrainRate .pitch (-1) false Option.none 120 false .NONE 0 (1/2) 0 5 = 0 := by
    unfold scheduleGrainRate
    rw [hpre]
    unfold clampRate
    norm_num [Real.sign_zero]
  refine ⟨h, ?_⟩
  rw [h]
  norm_num

/-- Claim C2, amended: for every grain voice whose pre-clamp rate is
nonzero (every combination except the pitch-target LFO sample being
exactly −1), the rate finally set satisfies `0.05 ≤ |rate| ≤ 4.0` with the
pre-clamp sign preserved; at a pre-clamp rate of exactly 0 the final rate
is 0 (previous theorem). -/
theorem scheduleGrainRate_clamped (target : LfoTarget) (lfoVal : ℝ) (beatSync : Bool)
    (detectedBpm : Option ℝ) (masterBpm : ℝ) (gActive : Bool) (gMode : GlitchMode)
    (jumpRand rand randomPitch : ℝ) (fuel : ℕ)
    (h : preRate target lfoVal beatSync detectedBpm masterBpm gActive gMode
      jumpRand rand randomPitch fuel ≠ 0) :
    5/100 ≤ |scheduleGrainRate target lfoVal beatSync detectedBpm masterBpm gActive gMode
      jumpRand rand randomPitch fuel| ∧
    |scheduleGrainRate target lfoVal beatSync detectedBpm masterBpm gActive gMode
      jumpRand rand randomPitch fuel| ≤ 4 ∧
    Real.sign (scheduleGrainRate target lfoVal beatSync detectedBpm masterBpm gActive gMode
      jumpRand rand randomPitch fuel) =
      Real.sign (preRate target lfoVal beatSync detectedBpm masterBpm gActive gMode
        jumpRand rand randomPitch fuel) :=
  clampRate_spec h

/-- Witness for amended C2: no LFO pitch modulation, no beat-sync, no
glitch, zero detune — the pre-clamp rate is 1 and the final rate has
magnitude in `[0.05, 4]` with positive sign preserved. -/
theorem scheduleGrainRate_clamped_witness :
    preRate .none 0 false Option.none 120 false .NONE 0 (1/2) 0 0 ≠ 0 ∧
    5/100 ≤ |scheduleGrainRate .none 0 false Option.none 120 false .NONE 0 (1/2) 0 0| ∧
    |scheduleGrainRate .none 0 false Option.none 120 false .NONE 0 (1/2) 0 0| ≤ 4 := by
  have hpre : preRate .none 0 false Option.none 120 false .NONE 0 (1/2) 0 0 = 1 := by
    unfold preRate
    norm_num
  have h1 : preRate .none 0 false Option.none 120 false .NONE 0 (1/2) 0 0 ≠ 0 := by
    rw [hpre]; norm_num
  have hmain := scheduleGrainRate_clamped .none 0 false Option.none 120 false .NONE 0 (1/2) 0 0 h1
  exact ⟨h1, hmain.1, hmain.2.1⟩

/-! ### Claim C7 -/

/-- Claim C7: for every positive `masterBpm` and positive `detectedBpm`,
the beat-sync folding loop on `ratio = masterBpm / detectedBpm` (halve
while above 1.5, then double while below 0.75) terminates — there is a
fuel bound past which extra fuel no longer changes the result — and the
folded ratio lies in `[0.75, 1.5]`. -/
theorem scheduleGrain_pitchFold_terminates (m d : ℚ) (hm : 0 < m) (hd : 0 < d) :
    ∃ N : ℕ, ∀ fuel : ℕ, N ≤ fuel →
      pitchFold fuel (m / d) = pitchFold N (m / d) ∧
      3/4 ≤ pitchFold fuel (m / d) ∧ pitchFold fuel (m / d) ≤ 3/2 := by
  have hr : 0 < m / d := div_pos hm hd
  obtain ⟨N₁, hN₁⟩ : ∃ n : ℕ, m / d < 2 ^ n :=
    pow_unbounded_of_one_lt (m / d) (by norm_num)
  have h2pos : (0:ℚ) < 2 ^ N₁ := pow_pos (by norm_num) N₁
  have hb1 : m / d ≤ 3/2 * 2 ^ N₁ := by nlinarith
  have hh'le : halveWhile (3/2) N₁ (m / d) ≤ 3/2 := halveWhile_le N₁ (m / d) hb1
  have hh'pos : 0 < halveWhile (3/2) N₁ (m / d) := halveWhile_pos hr N₁
  obtain ⟨N₂, hN₂⟩ : ∃ n : ℕ, (3/4) / halveWhile (3/2) N₁ (m / d) < 2 ^ n :=
    pow_unbounded_of_one_lt _ (by norm_num)
  have hb2 : 3/4 ≤ halveWhile (3/2) N₁ (m / d) * 2 ^ N₂ := by
    rw [div_lt_iff₀ hh'pos] at hN₂
    nlinarith
  have hdwge : 3/4 ≤ doubleWhile (3/4) N₂ (halveWhile (3/2) N₁ (m / d)) :=
    doubleWhile_ge N₂ _ hb2
  have hdwle : doubleWhile (3/4) N₂ (halveWhile (3/2) N₁ (m / d)) ≤ 3/2 := by
    rcases doubleWhile_cases N₂ (halveWhile (3/2) N₁ (m / d)) with h | h
    · rw [h]; exact hh'le
    · linarith
  refine ⟨max N₁ N₂, ?_⟩
  have key : ∀ fuel, max N₁ N₂ ≤ fuel →
      pitchFold fuel (m / d) = doubleWhile (3/4) N₂ (halveWhile (3/2) N₁ (m / d)) := by
    intro fuel hf
    have hf1 : N₁ ≤ fuel := le_trans (le_max_left N₁ N₂) hf
    have hf2 : N₂ ≤ fuel := le_trans (le_max_right N₁ N₂) hf
    have e1 : halveWhile (3/2) fuel (m / d) = halveWhile (3/2) N₁ (m / d) := by
      rw [show fuel = N₁ + (fuel - N₁) by omega]
      exact halveWhile_stable N₁ (m / d) hh'le (fuel - N₁)
    have e2 : doubleWhile (3/4) fuel (halveWhile (3/2) N₁ (m / d)) =
        doubleWhile (3/4) N₂ (halveWhile (3/2) N₁ (m / d)) := by
      rw [show fuel = N₂ + (fuel - N₂) by omega]
      exact doubleWhile_stable N₂ _ hdwge (fuel - N₂)
    unfold pitchFold
    rw [e1, e2]
  intro fuel hf
  rw [key fuel hf, key (max N₁ N₂) (le_refl _)]
  exact ⟨rfl, hdwge, hdwle⟩

/-- Witness for C7 at `masterBpm = 120`, `detectedBpm = 100`. -/
theorem scheduleGrain_pitchFold_terminates_witness :
    (0:ℚ) < 120 ∧ (0:ℚ) < 100 ∧
    (∃ N : ℕ, ∀ fuel : ℕ, N ≤ fuel →
      pitchFold fuel ((120:ℚ) / 100) = pitchFold N ((120:ℚ) / 100) ∧
      3/4 ≤ pitchFold fuel ((120:ℚ) / 100) ∧ pitchFold fuel ((120:ℚ) / 100) ≤ 3/2) :=
  ⟨by norm_num, by norm_num,
   scheduleGrain_pitchFold_terminates 120 100 (by norm_num) (by norm_num)⟩

/-! ### Claim C8 -/

/-- Every branch of the cursor-advance step moves the cursor strictly
forward (STUTTER: fixed 50 ms; beat-sync: subdivision with ±5 % jitter;
free-run: floored at 0.005 s). -/
theorem cursorStep_pos (g : GTick) (h : validTick g) : 0 < cursorStep g := by
  obtain ⟨hbpm, hr0, hr1⟩ := h
  have key : ∀ I : ℝ, 0 < I → 0 < I + (g.rand - 1/2) * I * (5/100) := by
    intro I hI
    nlinarith [mul_nonneg hr0 hI.le]
  dsimp only [cursorStep]
  split_ifs with h1 h2 h3 h4 h5 h6 h4 h5 h6
  · norm_num
  · exact absurd h3 (ne_of_gt hbpm)
  · exact absurd h3 (ne_of_gt hbpm)
  · exact absurd h3 (ne_of_gt hbpm)
  · exact absurd h3 (ne_of_gt hbpm)
  · exact key _ (mul_pos (div_pos (by norm_num) hbpm) (by norm_num))
  · exact key _ (mul_pos (div_pos (by norm_num) hbpm) (by norm_num))
  · exact key _ (mul_pos (div_pos (by norm_num) hbpm) (by norm_num))
  · exact key _ (mul_pos (div_pos (by norm_num) hbpm) (by norm_num))
  · exact lt_of_lt_of_le (by norm_num) (le_max_left _ _)

/-- The persisted cursor never lies before the cursor the loop started from. -/
theorem le_endCursor (gs : List GTick) :
    ∀ t : ℝ, (∀ g ∈ gs, validTick g) → t ≤ endCursor t gs := by
  induction gs with
  | nil => intro t _; exact le_refl t
  | cons g gs ih =>
    intro t hv
    have hstep := cursorStep_pos g (hv g (List.mem_cons_self g gs))
    calc t ≤ t + cursorStep g := by linarith
      _ ≤ endCursor (t + cursorStep g) gs :=
        ih (t + cursorStep g) (fun g' hg' => hv g' (List.mem_cons_of_mem g hg'))

/-- Every grain time emitted by the loop lies in `[t, endCursor t gs)`. -/
theorem grainTimes_mem_bounds (gs : List GTick) :
    ∀ t : ℝ, (∀ g ∈ gs, validTick g) →
      ∀ x ∈ grainTimes t gs, t ≤ x ∧ x < endCursor t gs := by
  induction gs with
  | nil => intro t _ x hx; simp [grainTimes] at hx
  | cons g gs ih =>
    intro t hv x hx
    have hstep := cursorStep_pos g (hv g (List.mem_cons_self g gs))
    have hv' : ∀ g' ∈ gs, validTick g' := fun g' hg' => hv g' (List.mem_cons_of_mem g hg')
    rcases List.mem_cons.mp hx with rfl | hx'
    · refine ⟨le_refl x, ?_⟩
      show x < endCursor (x + cursorStep g) gs
      calc x < x + cursorStep g := by linarith
        _ ≤ endCursor (x + cursorStep g) gs := le_endCursor gs _ hv'
    · obtain ⟨h1, h2⟩ := ih (t + cursorStep g) hv' x hx'
      exact ⟨by linarith, h2⟩

/-- Within one tick the emitted grain times are strictly increasing. -/
theorem grainTimes_chain (gs : List GTick) :
    ∀ t : ℝ, (∀ g ∈ gs, validTick g) → List.Chain' (· < ·) (grainTimes t gs) := by
  induction gs with
  | nil => intro t _; simp [grainTimes]
  | cons g gs ih =>
    intro t hv
    have hstep := cursorStep_pos g (hv g (List.mem_cons_self g gs))
    have hv' : ∀ g' ∈ gs, validTick g' := fun g' hg' => hv g' (List.mem_cons_of_mem g hg')
    show List.Chain' (· < ·) (t :: grainTimes (t + cursorStep g) gs)
    rw [List.chain'_cons']
    refine ⟨?_, ih (t + cursorStep g) hv'⟩
    intro y hy
    have hmem : y ∈ grainTimes (t + cursorStep g) gs := List.mem_of_mem_head? hy
    have := (grainTimes_mem_bounds gs (t + cursorStep g) hv' y hmem).1
    linarith

/-- Every grain time of a multi-tick run lies at or after the starting cursor. -/
theorem schedulerTimes_ge (ts : List (ℝ × List GTick)) :
    ∀ c : ℝ, (∀ p ∈ ts, ∀ g ∈ p.2, validTick g) →
      ∀ y ∈ schedulerTimes c ts, c ≤ y := by
  induction ts with
  | nil => intro c _ y hy; simp [schedulerTimes] at hy
  | cons p ts ih =>
    obtain ⟨now, gs⟩ := p
    intro c hv y hy
    have hvgs : ∀ g ∈ gs, validTick g := hv (now, gs) (List.mem_cons_self _ ts)
    have hv' : ∀ p' ∈ ts, ∀ g ∈ p'.2, validTick g :=
      fun p' hp' => hv p' (List.mem_cons_of_mem _ hp')
    have hc1 : c ≤ (if c < now then now else c) := by
      split_ifs with h
      · exact le_of_lt h
      · exact le_refl c
    rcases List.mem_append.mp hy with hl | hr
    · exact le_trans hc1 (grainTimes_mem_bounds gs _ hvgs y hl).1
    · have hend : (if c < now then now else c) ≤ endCursor (if c < now then now else c) gs :=
        le_endCursor gs _ hvgs
      exact le_trans (le_trans hc1 hend) (ih _ hv' y hr)

/-- Claim C8: for one orb, under a positive master BPM and `Math.random()`
draws in `[0, 1)`, the grain start times scheduled across any run of
scheduler ticks are strictly increasing: every branch of the
cursor-advance step moves the cursor strictly forward, and the per-tick
snap of a lagging cursor to `currentTime` only ever moves it further
forward. -/
theorem schedulerTimes_strictMono (ts : List (ℝ × List GTick)) :
    ∀ c : ℝ, (∀ p ∈ ts, ∀ g ∈ p.2, validTick g) →
      List.Chain' (· < ·) (schedulerTimes c ts) := by
  induction ts with
  | nil => intro c _; simp [schedulerTimes]
  | cons p ts ih =>
    obtain ⟨now, gs⟩ := p
    intro c hv
    have hvgs : ∀ g ∈ gs, validTick g := hv (now, gs) (List.mem_cons_self _ ts)
    have hv' : ∀ p' ∈ ts, ∀ g ∈ p'.2, validTick g :=
      fun p' hp' => hv p' (List.mem_cons_of_mem _ hp')
    show List.Chain' (· < ·)
      (grainTimes (if c < now then now else c) gs ++
        schedulerTimes (endCursor (if c < now then now else c) gs) ts)
    rw [List.chain'_append]
    refine ⟨grainTimes_chain gs _ hvgs, ih _ hv', ?_⟩
    intro x hx y hy
    have hxmem : x ∈ grainTimes (if c < now then now else c) gs := List.mem_of_mem_getLast? hx
    have hxlt : x < endCursor (if c < now then now else c) gs :=
      (grainTimes_mem_bounds gs _ hvgs x hxmem).2
    have hymem : y ∈ schedulerTimes (endCursor (if c < now then now else c) gs) ts :=
      List.mem_of_mem_head? hy
    have hyge := schedulerTimes_ge ts _ hv' y hymem
    linarith

/-- Witness for C8: cursor 0, two ticks — one STUTTER grain, then one
free-run grain after a snap to `currentTime = 1`. -/
theorem schedulerTimes_strictMono_witness :
    (∀ p ∈ [((0:ℝ), [⟨true, false, 1, 0, 0⟩]), ((1:ℝ), [⟨false, false, 1, 1, 1/2⟩])],
      ∀ g ∈ p.2, validTick g) ∧
    List.Chain' (· < ·)
      (schedulerTimes 0 [((0:ℝ), [⟨true, false, 1, 0, 0⟩]), ((1:ℝ), [⟨false, false, 1, 1, 1/2⟩])]) := by
  have hval : ∀ p ∈ [((0:ℝ), [(⟨true, false, 1, 0, 0⟩ : GTick)]),
      ((1:ℝ), [(⟨false, false, 1, 1, 1/2⟩ : GTick)])], ∀ g ∈ p.2, validTick g := by
    intro p hp g hg
    rcases List.mem_cons.mp hp with rfl | hp'
    · rcases List.mem_cons.mp hg with rfl | hg'
      · exact ⟨by norm_num, le_refl 0, by norm_num⟩
      · cases hg'
    · rcases List.mem_cons.mp hp' with rfl | hp''
      · rcases List.mem_cons.mp hg with rfl | hg'
        · exact ⟨by norm_num, by norm_num, by norm_num⟩
        · cases hg'
      · cases hp''
  exact ⟨hval, schedulerTimes_strictMono _ 0 hval⟩

/-! ### Claims C9 and C10: the tempo estimator -/

/-- On data with no sample above the 0.3 threshold, the peak scan never
accepts a peak. -/
theorem peaksFold_silent (data : List ℚ) :
    ∀ (n : ℕ) (acc : List ℕ) (md : ℚ), (∀ x ∈ data, x ≤ 3/10) →
      (data.enumFrom n).foldl (peakStep md) acc = acc := by
  induction data with
  | nil => intro n acc md _; rfl
  | cons a l ih =>
    intro n acc md h
    have ha : a ≤ 3/10 := h a (List.mem_cons_self a l)
    show ((n, a) :: l.enumFrom (n + 1)).foldl (peakStep md) acc = acc
    rw [List.foldl_cons]
    have h2 : ¬ (3/10 < (n, a).2) := not_lt.mpr ha
    have hstep : peakStep md acc (n, a) = acc := by
      unfold peakStep
      rw [if_neg h2]
    rw [hstep]
    exact ih (n + 1) acc md (fun x hx => h x (List.mem_cons_of_mem a hx))

/-- Silence yields no peaks at all. -/
theorem findPeaks_silent (data : List ℚ) (md : ℚ) (h : ∀ x ∈ data, x ≤ 3/10) :
    findPeaks data md = [] := by
  unfold findPeaks
  rw [show data.enum = data.enumFrom 0 from rfl, peaksFold_silent data 0 [] md h]
  rfl

/-- With fewer than two accepted peaks, `detectBPM` returns the 120 default. -/
theorem detectBPM_of_few_peaks (data : List ℚ) (sr : ℚ) (fuel : ℕ)
    (h : (findPeaks data (1/4 * sr)).length < 2) : detectBPM data sr fuel = 120 := by
  simp only [detectBPM]
  rw [if_pos h]

/-- Claim C9: `detectBPM` never fails observably.  Any exception in the
analysis body is caught and yields 120; with fewer than two accepted
peaks it returns exactly 120; in particular on silence (no sample above
the 0.3 threshold) it returns exactly 120. -/
theorem detectBPM_never_fails :
    (∀ (e : Unit) (fuel : ℕ), detectBPMSafe (.error e) fuel = 120) ∧
    (∀ (data : List ℚ) (sr : ℚ) (fuel : ℕ),
      (findPeaks data (1/4 * sr)).length < 2 → detectBPM data sr fuel = 120) ∧
    (∀ (data : List ℚ) (sr : ℚ) (fuel : ℕ),
      (∀ x ∈ data, x ≤ 3/10) → detectBPM data sr fuel = 120) := by
  refine ⟨fun e fuel => rfl, detectBPM_of_few_peaks, ?_⟩
  intro data sr fuel h
  apply detectBPM_of_few_peaks
  rw [findPeaks_silent data _ h]
  norm_num

/-- Witness for C9: the caught-error branch, a one-sample buffer (a single
peak) and a concrete silent buffer, all returning 120. -/
theorem detectBPM_never_fails_witness :
    detectBPMSafe (.error ()) 0 = 120 ∧
    ((findPeaks [1/2] (1/4 * 4)).length < 2 ∧ detectBPM [1/2] 4 0 = 120) ∧
    ((∀ x ∈ [(1/10 : ℚ), 0], x ≤ 3/10) ∧ detectBPM [1/10, 0] 4 0 = 120) := by
  have h1 : (findPeaks [(1/2 : ℚ)] (1/4 * 4)).length < 2 := by
    norm_num [findPeaks, peakStep, List.enum, List.enumFrom]
  have h2 : ∀ x ∈ [(1/10 : ℚ), 0], x ≤ 3/10 := by
    intro x hx
    rcases List.mem_cons.mp hx with rfl | hx'
    · norm_num
    · rcases List.mem_cons.mp hx' with rfl | hx''
      · norm_num
      · cases hx''
  exact ⟨detectBPM_never_fails.1 () 0,
    ⟨h1, detectBPM_never_fails.2.1 [1/2] 4 0 h1⟩,
    ⟨h2, detectBPM_never_fails.2.2 [1/10, 0] 4 0 h2⟩⟩

/-- Fuel sufficiency for the two tempo-folding loops of `detectBPM`:
either a default branch is taken, or the raw BPM fits the doubling and
halving bounds within the given fuel. -/
def detectFuelOK (data : List ℚ) (sr : ℚ) (fuel : ℕ) : Prop :=
  (findPeaks data (1/4 * sr)).length < 2 ∨
  bestIntervalOf (intervalsOf (findPeaks data (1/4 * sr))) = 0 ∨
  (70 ≤ 60 / ((bestIntervalOf (intervalsOf (findPeaks data (1/4 * sr))) : ℚ) / sr) * 2 ^ fuel ∧
   60 / ((bestIntervalOf (intervalsOf (findPeaks data (1/4 * sr))) : ℚ) / sr) ≤ 180 * 2 ^ fuel)

/-- Claim C10: whenever `detectBPM` returns (given enough loop fuel), the
returned value is an integer in `[70, 180]`: the doubling loop raises a
positive estimate below 70 into `[70, 140)`, the halving loop lowers an
estimate above 180 into `(90, 180]`, the result is rounded, and the 120
default also lies in the range. -/
theorem detectBPM_result_in_range (data : List ℚ) (sr : ℚ) (fuel : ℕ)
    (hfuel : detectFuelOK data sr fuel) :
    (70 ≤ detectBPM data sr fuel ∧ detectBPM data sr fuel ≤ 180) ∧
    (∀ (x : ℚ) (f : ℕ), 70 ≤ x * 2 ^ f → x < 70 →
      70 ≤ doubleWhile 70 f x ∧ doubleWhile 70 f x < 140) ∧
    (∀ (x : ℚ) (f : ℕ), x ≤ 180 * 2 ^ f → 180 < x →
      90 < halveWhile 180 f x ∧ halveWhile 180 f x ≤ 180) := by
  refine ⟨?_, ?_, ?_⟩
  · by_cases hp : (findPeaks data (1/4 * sr)).length < 2
    · rw [detectBPM_of_few_peaks data sr fuel hp]
      norm_num
    · by_cases hb : bestIntervalOf (intervalsOf (findPeaks data (1/4 * sr))) = 0
      · have h120 : detectBPM data sr fuel = 120 := by
          simp only [detectBPM]
          rw [if_neg hp, if_pos hb]
        rw [h120]; norm_num
      · obtain ⟨hlo, hhi⟩ :
            70 ≤ 60 / ((bestIntervalOf (intervalsOf (findPeaks data (1/4 * sr))) : ℚ) / sr) *
              2 ^ fuel ∧
            60 / ((bestIntervalOf (intervalsOf (findPeaks data (1/4 * sr))) : ℚ) / sr) ≤
              180 * 2 ^ fuel := by
          rcases hfuel with h | h | h
          · exact absurd h hp
          · exact absurd h hb
          · exact h
        have h2pow : (1:ℚ) ≤ 2 ^ fuel := by
          calc (1:ℚ) = 1 ^ fuel := (one_pow fuel).symm
            _ ≤ 2 ^ fuel := pow_le_pow_left₀ (by norm_num) (by norm_num) fuel
        have hf1ge : 70 ≤ doubleWhile 70 fuel
            (60 / ((bestIntervalOf (intervalsOf (findPeaks data (1/4 * sr))) : ℚ) / sr)) :=
          doubleWhile_ge fuel _ hlo
        have hf1le : doubleWhile 70 fuel
            (60 / ((bestIntervalOf (intervalsOf (findPeaks data (1/4 * sr))) : ℚ) / sr)) ≤
            180 * 2 ^ fuel := by
          rcases doubleWhile_cases fuel
            (60 / ((bestIntervalOf (intervalsOf (findPeaks data (1/4 * sr))) : ℚ) / sr))
            with h | h
          · rw [h]; exact hhi
          · nlinarith
        have hf2le : halveWhile 180 fuel (doubleWhile 70 fuel
            (60 / ((bestIntervalOf (intervalsOf (findPeaks data (1/4 * sr))) : ℚ) / sr))) ≤
            180 := halveWhile_le fuel _ hf1le
        have hf2ge : 70 ≤ halveWhile 180 fuel (doubleWhile 70 fuel
            (60 / ((bestIntervalOf (intervalsOf (findPeaks data (1/4 * sr))) : ℚ) / sr))) := by
          rcases halveWhile_cases fuel (doubleWhile 70 fuel
            (60 / ((bestIntervalOf (intervalsOf (findPeaks data (1/4 * sr))) : ℚ) / sr)))
            with h | h
          · rw [h]; exact hf1ge
          · linarith
        have hrge : (70:ℤ) ≤ round (halveWhile 180 fuel (doubleWhile 70 fuel
            (60 / ((bestIntervalOf (intervalsOf (findPeaks data (1/4 * sr))) : ℚ) / sr)))) := by
          rw [round_eq]
          apply Int.le_floor.mpr
          push_cast
          linarith
        have hrle : round (halveWhile 180 fuel (doubleWhile 70 fuel
            (60 / ((bestIntervalOf (intervalsOf (findPeaks data (1/4 * sr))) : ℚ) / sr)))) ≤
            (180:ℤ) := by
          rw [round_eq]
          have hmono : (⌊halveWhile 180 fuel (doubleWhile 70 fuel
              (60 / ((bestIntervalOf (intervalsOf (findPeaks data (1/4 * sr))) : ℚ) / sr))) +
              1/2⌋ : ℤ) ≤ ⌊(180:ℚ) + 1/2⌋ := Int.floor_mono (by linarith)
          have h180 : (⌊(180:ℚ) + 1/2⌋ : ℤ) = 180 := by norm_num
          rw [h180] at hmono
          exact hmono
        have hne : round (halveWhile 180 fuel (doubleWhile 70 fuel
            (60 / ((bestIntervalOf (intervalsOf (findPeaks data (1/4 * sr))) : ℚ) / sr)))) ≠
            0 := by omega
        have heq : detectBPM data sr fuel = round (halveWhile 180 fuel (doubleWhile 70 fuel
            (60 / ((bestIntervalOf (intervalsOf (findPeaks data (1/4 * sr))) : ℚ) / sr)))) := by
          simp only [detectBPM]
          rw [if_neg hp, if_neg hb, if_neg hne]
        rw [heq]
        exact ⟨hrge, hrle⟩
  · intro x f hge hlt
    refine ⟨doubleWhile_ge f x hge, ?_⟩
    rcases doubleWhile_cases f x with h | h
    · have hcontra := doubleWhile_ge f x hge
      rw [h] at hcontra
      linarith
    · linarith
  · intro x f hle hgt
    refine ⟨?_, halveWhile_le f x hle⟩
    rcases halveWhile_cases f x with h | h
    · rw [h]; linarith
    · linarith

/-- Witness for C10: the empty (silent) buffer at sample rate 1 with no
loop fuel takes the sub-two-peaks default and returns 120 ∈ [70, 180]. -/
theorem detectBPM_result_in_range_witness :
    detectFuelOK [] 1 0 ∧ (70 ≤ detectBPM [] 1 0 ∧ detectBPM [] 1 0 ≤ 180) := by
  have h : detectFuelOK [] 1 0 := Or.inl (by norm_num [findPeaks])
  exact ⟨h, (detectBPM_result_in_range [] 1 0 h).1⟩

end Granulator
